import Mathlib

/-!
Verification development for the fantasy-hockey redraft analysis engine.

The definitions below are a shallow embedding of the engine:

* `models.py`      : `Player`, `DraftPick`, `RedraftComparison`, `RedraftResult`
* `ranking.py`     : `Position.from_espn_position`, the three ranking
  strategies, and `ValueOverReplacementRanker.calculate_replacement_levels`
* `client.py`      : `FantasyHockeyClient.get_redraft`
* `cli.py`         : `get_strategy`, the redraft command path of `main`, and
  the steals/busts summary of `print_redraft`

Season point totals are embedded as rationals: the Python code stores floats,
but every property checked here concerns only comparisons and exact
arithmetic (multiplication by 3/4, subtraction), never rounding behaviour.
Python `sorted(xs, key=k, reverse=True)` is a stable descending sort; it is
embedded with `List.insertionSort`, which is stable with the same tie-break
(earlier input first).
-/

namespace FantasyHockey

/-- models.Player.  `position` is the raw free-text label from the provider. -/
structure Player where
  player_id : Int
  player_name : String
  position : String
  total_points : Rat
deriving DecidableEq

/-- models.DraftPick. -/
structure DraftPick where
  round_num : Nat
  pick_num : Nat
  overall_pick : Nat
  team_id : Int
  team_name : String
  player : Player
deriving DecidableEq

/-- models.RedraftComparison. -/
structure RedraftComparison where
  actual_pick : Nat
  redraft_pick : Nat
  player : Player
  team_name : String
deriving DecidableEq

/-- models.RedraftComparison.pick_difference: actual_pick - redraft_pick. -/
def RedraftComparison.pick_difference (c : RedraftComparison) : Int :=
  (c.actual_pick : Int) - (c.redraft_pick : Int)

/-- models.RedraftResult. -/
structure RedraftResult where
  comparisons : List RedraftComparison
  ranked_players : List Player
deriving DecidableEq

/-- ranking.Position: the simplified position categories. -/
inductive Position where
  | FORWARD
  | DEFENSE
  | GOALIE
deriving DecidableEq

/-- ranking.DEFAULT_GOALIE_MULTIPLIER = 0.75 (exactly representable). -/
def DEFAULT_GOALIE_MULTIPLIER : Rat := 3 / 4

/-- Python `str.lower()`: character-wise lowercasing (they agree on the ASCII
labels this program compares against). -/
def strLower (s : String) : String := String.mk (s.data.map Char.toLower)

/-- ranking.Position.from_espn_position. -/
def Position.from_espn_position (position : String) : Position :=
  let pos_lower := strLower position
  if pos_lower = "goalie" then Position.GOALIE
  else if pos_lower = "defense" then Position.DEFENSE
  else Position.FORWARD

/-- Python `sorted(l, key=key, reverse=True)`: a stable sort, descending in
`key`, ties keeping input order.  `List.insertionSort` with the relation
"`a` may be placed before `b`" = `key b ≤ key a` has exactly this behaviour. -/
def sortKeyDesc {α K : Type} [LinearOrder K] (key : α → K) (l : List α) : List α :=
  List.insertionSort (fun a b => key b ≤ key a) l

/-- Python `sorted(l, key=key)`: a stable sort, ascending in `key`. -/
def sortKeyAsc {α K : Type} [LinearOrder K] (key : α → K) (l : List α) : List α :=
  List.insertionSort (fun a b => key a ≤ key b) l

/-- The closed set of ranking strategies (ranking.py).  The VOR ranker's
`replacement_levels` dict with default 0.0 lookup is embedded as a total
function on the three positions. -/
inductive RankingStrategy where
  | totalPoints
  | positionAdjusted (goalie_multiplier : Rat)
  | valueOverReplacement (replacement_levels : Position → Rat)

/-- ranking.PositionAdjustedRanker._adjusted_points. -/
def adjustedPoints (goalie_multiplier : Rat) (player : Player) : Rat :=
  if strLower player.position = "goalie" then player.total_points * goalie_multiplier
  else player.total_points

/-- ranking.ValueOverReplacementRanker._get_vor. -/
def getVor (replacement_levels : Position → Rat) (player : Player) : Rat :=
  player.total_points - replacement_levels (Position.from_espn_position player.position)

/-- The strategy-specific sort key used by each ranker's `rank`. -/
def scoreKey : RankingStrategy → Player → Rat
  | RankingStrategy.totalPoints => Player.total_points
  | RankingStrategy.positionAdjusted m => adjustedPoints m
  | RankingStrategy.valueOverReplacement levels => getVor levels

/-- The `rank` method shared by all three rankers:
`sorted(players, key=<score>, reverse=True)`. -/
def RankingStrategy.rank (strategy : RankingStrategy) (players : List Player) : List Player :=
  sortKeyDesc (scoreKey strategy) players

/-- ranking.ValueOverReplacementRanker.DEFAULT_REPLACEMENT_LEVELS. -/
def DEFAULT_REPLACEMENT_LEVELS : Position → Rat
  | Position.FORWARD => 461 / 10
  | Position.DEFENSE => 45
  | Position.GOALIE => 726 / 10

/-- The default roster_spots dict of calculate_replacement_levels. -/
def default_roster_spots : Position → Nat
  | Position.FORWARD => 9
  | Position.DEFENSE => 4
  | Position.GOALIE => 2

/-- The by_position grouping plus per-position sort of
calculate_replacement_levels: grouping by classified position preserves
input order, so one partition is a filter, then sorted by points descending
(Python list.sort is stable). -/
def positionPartition (players : List Player) (pos : Position) : List Player :=
  sortKeyDesc Player.total_points
    (players.filter (fun p => Position.from_espn_position p.position = pos))

/-- ranking.ValueOverReplacementRanker.calculate_replacement_levels, curried
per position (the Python version returns the dict over all three positions). -/
def calculate_replacement_levels (players : List Player) (num_teams : Nat)
    (roster_spots : Position → Nat) (pos : Position) : Rat :=
  let pos_players := positionPartition players pos
  let starters_needed := num_teams * roster_spots pos
  if h : starters_needed < pos_players.length then
    (pos_players.get ⟨starters_needed, h⟩).total_points
  else
    match pos_players.getLast? with
    | some p => p.total_points
    | none => 0

/-- client.get_redraft builds `redraft_position` as a dict comprehension
mapping `player_id` to 1-based rank over the enumerated ranked list, later
entries overwriting earlier ones, and then indexes it.  This function returns
the 1-based index of the LAST occurrence of `pid` in the ranked list, or
`none` for the `KeyError` branch when the id is absent. -/
def redraftPosition (pid : Int) : List Player → Option Nat
  | [] => none
  | q :: qs =>
    match redraftPosition pid qs with
    | some i => some (i + 1)
    | none => if q.player_id = pid then some 1 else none

/-- One iteration of the comparison loop of client.get_redraft: the dict
lookup (which can raise KeyError, hence Option) followed by the
RedraftComparison construction. -/
def mkComparison (ranked_players : List Player) (pick : DraftPick) :
    Option RedraftComparison :=
  (redraftPosition pick.player.player_id ranked_players).map (fun rp =>
    { actual_pick := pick.overall_pick
      redraft_pick := rp
      player := pick.player
      team_name := pick.team_name })

/-- The comparison loop of client.get_redraft over the display picks;
`none` when any lookup raises. -/
def buildComparisons (ranked_players : List Player) :
    List DraftPick → Option (List RedraftComparison)
  | [] => some []
  | pick :: picks =>
    match mkComparison ranked_players pick, buildComparisons ranked_players picks with
    | some c, some cs => some (c :: cs)
    | _, _ => none

/-- client.FantasyHockeyClient.get_redraft, with the pick list obtained from
the provider passed explicitly.  `strategy = none` models the Python default
argument `strategy=None`, replaced by `PositionAdjustedRanker()`. -/
def get_redraft (strategy : Option RankingStrategy) (rounds : Option Nat)
    (all_picks : List DraftPick) : Option RedraftResult :=
  let chosen := strategy.getD (RankingStrategy.positionAdjusted DEFAULT_GOALIE_MULTIPLIER)
  let all_players := all_picks.map DraftPick.player
  let ranked_players := chosen.rank all_players
  let display_picks :=
    match rounds with
    | none => all_picks
    | some r => all_picks.filter (fun p => p.round_num ≤ r)
  (buildComparisons ranked_players display_picks).map (fun comparisons =>
    { comparisons := comparisons, ranked_players := ranked_players })

/-- cli.get_strategy: dict lookup over the three recognised names, each
constructed with no arguments (so with its defaults). -/
def get_strategy (strategy_name : String) : Option RankingStrategy :=
  if strategy_name = "vor" then
    some (RankingStrategy.valueOverReplacement DEFAULT_REPLACEMENT_LEVELS)
  else if strategy_name = "total" then some RankingStrategy.totalPoints
  else if strategy_name = "adjusted" then
    some (RankingStrategy.positionAdjusted DEFAULT_GOALIE_MULTIPLIER)
  else none

/-- cli.DEFAULT_ROUNDS. -/
def DEFAULT_ROUNDS : Nat := 1

/-- The redraft command path of cli.main: an unknown strategy name prints
"Unknown strategy" to stderr and returns exit code 1 before any ranking is
performed (modelled as the Except error branch); otherwise the redraft is
computed with `rounds or DEFAULT_ROUNDS` (Python truthiness: None and 0 both
give DEFAULT_ROUNDS). -/
def run_redraft_command (strategy_name : String) (rounds : Option Nat)
    (all_picks : List DraftPick) : Except String (Option RedraftResult) :=
  match get_strategy strategy_name with
  | none => Except.error ("Unknown strategy: " ++ strategy_name)
  | some strategy =>
    let effective_rounds :=
      match rounds with
      | some r => if r = 0 then DEFAULT_ROUNDS else r
      | none => DEFAULT_ROUNDS
    Except.ok (get_redraft (some strategy) (some effective_rounds) all_picks)

/-- cli.print_redraft: `sorted(comparisons, key=pick_difference, reverse=True)[:5]`,
the candidate list for the BIGGEST STEALS section. -/
def biggest_steals (comparisons : List RedraftComparison) : List RedraftComparison :=
  (sortKeyDesc RedraftComparison.pick_difference comparisons).take 5

/-- cli.print_redraft: `sorted(comparisons, key=pick_difference)[:5]`,
the candidate list for the BIGGEST BUSTS section. -/
def biggest_busts (comparisons : List RedraftComparison) : List RedraftComparison :=
  (sortKeyAsc RedraftComparison.pick_difference comparisons).take 5

/-- The entries actually printed under "BIGGEST STEALS (outperformed draft
position)": candidates with `pick_difference > 0`. -/
def printed_steals (comparisons : List RedraftComparison) : List RedraftComparison :=
  (biggest_steals comparisons).filter (fun c => 0 < c.pick_difference)

/-- The entries actually printed under "BIGGEST BUSTS (underperformed draft
position)": candidates with `pick_difference < 0`. -/
def printed_busts (comparisons : List RedraftComparison) : List RedraftComparison :=
  (biggest_busts comparisons).filter (fun c => c.pick_difference < 0)

section SortLemmas

variable {α K : Type} [LinearOrder K]

theorem sortKeyDesc_cons (key : α → K) (a : α) (l : List α) :
    sortKeyDesc key (a :: l) =
      List.orderedInsert (fun a b => key b ≤ key a) a (sortKeyDesc key l) := rfl

theorem sortKeyDesc_perm (key : α → K) (l : List α) :
    List.Perm (sortKeyDesc key l) l :=
  List.perm_insertionSort _ l

theorem sortKeyDesc_sorted (key : α → K) (l : List α) :
    List.Sorted (fun a b => key b ≤ key a) (sortKeyDesc key l) := by
  haveI : IsTotal α (fun a b => key b ≤ key a) := ⟨fun a b => le_total (key b) (key a)⟩
  haveI : IsTrans α (fun a b => key b ≤ key a) := ⟨fun _ _ _ hab hbc => le_trans hbc hab⟩
  exact List.sorted_insertionSort _ l

theorem pairwise_filter_of_forall {r : α → α → Prop} (q : α → Bool) (l : List α)
    (h : ∀ a b, q a = true → q b = true → r a b) : (l.filter q).Pairwise r := by
  induction l with
  | nil => simp
  | cons a l ih =>
    by_cases ha : q a = true
    · rw [List.filter_cons_of_pos ha]
      exact List.Pairwise.cons (fun b hb => h a b ha (List.of_mem_filter hb)) ih
    · rw [List.filter_cons_of_neg ha]
      exact ih

/-- Stability of the descending sort: each key class keeps its input order. -/
theorem sortKeyDesc_filter_keyclass (key : α → K) (l : List α) (c : K) :
    (sortKeyDesc key l).filter (fun a => key a == c) = l.filter (fun a => key a == c) := by
  have hpair : (l.filter (fun a => key a == c)).Pairwise (fun a b => key b ≤ key a) :=
    pairwise_filter_of_forall _ _ (fun a b ha hb => by
      have ha' : key a = c := by simpa using ha
      have hb' : key b = c := by simpa using hb
      rw [ha', hb'])
  have hsub : List.Sublist (l.filter (fun a => key a == c)) (sortKeyDesc key l) :=
    List.sublist_insertionSort hpair (List.filter_sublist l)
  have hsub2 : List.Sublist (l.filter (fun a => key a == c))
      ((sortKeyDesc key l).filter (fun a => key a == c)) := by
    have h2 := hsub.filter (fun a => key a == c)
    rwa [List.filter_eq_self.mpr
      (fun x hx => List.of_mem_filter (p := fun a => key a == c) hx)] at h2
  have hlen : ((sortKeyDesc key l).filter (fun a => key a == c)).length =
      (l.filter (fun a => key a == c)).length :=
    ((sortKeyDesc_perm key l).filter _).length_eq
  exact (hsub2.eq_of_length hlen.symm).symm

/-- Uniqueness of stable sorting: two sorted permutations of each other that
agree on every key class are equal. -/
theorem stable_sort_unique (key : α → K) (s : List α) :
    ∀ (t : List α), List.Perm s t → List.Sorted (fun a b => key b ≤ key a) s →
      List.Sorted (fun a b => key b ≤ key a) t →
      (∀ c : K, s.filter (fun a => key a == c) = t.filter (fun a => key a == c)) →
      s = t := by
  induction s with
  | nil => intro t hp _ _ _; exact hp.nil_eq
  | cons a s ih =>
    intro t hp hs ht hf
    cases t with
    | nil => exact hp.eq_nil
    | cons b t =>
      have hmem : a ∈ b :: t := hp.subset (List.mem_cons_self a s)
      have hmem2 : b ∈ a :: s := hp.symm.subset (List.mem_cons_self b t)
      have hab : key a = key b := by
        rcases List.mem_cons.mp hmem with h | h
        · rw [h]
        · rcases List.mem_cons.mp hmem2 with h2 | h2
          · rw [h2]
          · exact le_antisymm (List.rel_of_sorted_cons ht a h)
              (List.rel_of_sorted_cons hs b h2)
      have hfa := hf (key a)
      rw [List.filter_cons_of_pos (by simp), List.filter_cons_of_pos (by simp [hab])] at hfa
      have hheads : a = b := (List.cons_eq_cons.mp hfa).1
      subst hheads
      have htails : s = t := by
        apply ih t (hp.cons_inv) (hs.of_cons) (ht.of_cons)
        intro c
        have hc := hf c
        by_cases hkc : key a = c
        · rw [List.filter_cons_of_pos (by simp [hkc]),
            List.filter_cons_of_pos (by simp [hkc])] at hc
          exact (List.cons_eq_cons.mp hc).2
        · rwa [List.filter_cons_of_neg (by simp [hkc]),
            List.filter_cons_of_neg (by simp [hkc])] at hc
      rw [htails]

/-- A stable sort commutes with any filter. -/
theorem sortKeyDesc_filter_comm {α K : Type} [LinearOrder K] (key : α → K)
    (Q : α → Bool) (l : List α) :
    sortKeyDesc key (l.filter Q) = (sortKeyDesc key l).filter Q := by
  apply stable_sort_unique key
  · exact (sortKeyDesc_perm key _).trans (((sortKeyDesc_perm key l).filter Q).symm)
  · exact sortKeyDesc_sorted key _
  · exact (sortKeyDesc_sorted key l).filter Q
  · intro c
    rw [sortKeyDesc_filter_keyclass key (l.filter Q) c]
    have h1 := congrArg (List.filter Q) (sortKeyDesc_filter_keyclass key l c)
    rw [List.filter_filter, List.filter_filter] at h1
    have hcomm : (fun a => Q a && (key a == c)) = (fun a => (key a == c) && Q a) := by
      funext a; exact Bool.and_comm _ _
    rw [List.filter_filter, List.filter_filter, ← hcomm, h1]

/-- On a list sorted descending in `key`, taking a prefix commutes with
keeping the elements whose key is above a threshold. -/
theorem sorted_take_filter_lt {α K : Type} [LinearOrder K] (key : α → K) (c : K) :
    ∀ (s : List α), List.Sorted (fun a b => key b ≤ key a) s → ∀ n : Nat,
      (s.take n).filter (fun a => c < key a) =
        (s.filter (fun a => c < key a)).take n := by
  intro s
  induction s with
  | nil => intro _ n; simp
  | cons a s ih =>
    intro hs n
    cases n with
    | zero => simp
    | succ n =>
      by_cases ha : c < key a
      · rw [List.take_succ_cons, List.filter_cons_of_pos (by simpa using ha),
          List.filter_cons_of_pos (by simpa using ha), List.take_succ_cons,
          ih hs.of_cons n]
      · have hnil : s.filter (fun x => decide (c < key x)) = [] := by
          rw [List.filter_eq_nil_iff]
          intro x hx
          have hxa : key x ≤ key a := List.rel_of_sorted_cons hs x hx
          simp only [decide_eq_true_eq]
          intro hcx
          exact ha (lt_of_lt_of_le hcx hxa)
        have hnil2 : (s.take n).filter (fun x => decide (c < key x)) = [] := by
          have hsub := (List.take_sublist n s).filter (fun x => decide (c < key x))
          rw [hnil] at hsub
          exact List.sublist_nil.mp hsub
        rw [List.take_succ_cons, List.filter_cons_of_neg (by simpa using ha),
          List.filter_cons_of_neg (by simpa using ha), hnil, hnil2, List.take_nil]

theorem orderedInsert_congr_rel {α : Type} {r₁ r₂ : α → α → Prop}
    [DecidableRel r₁] [DecidableRel r₂] (h : ∀ a b, r₁ a b ↔ r₂ a b) (x : α) :
    ∀ l : List α, List.orderedInsert r₁ x l = List.orderedInsert r₂ x l
  | [] => rfl
  | b :: l => by
    simp only [List.orderedInsert]
    exact if_congr (h x b) rfl (by rw [orderedInsert_congr_rel h x l])

theorem insertionSort_congr_rel {α : Type} {r₁ r₂ : α → α → Prop}
    [DecidableRel r₁] [DecidableRel r₂] (h : ∀ a b, r₁ a b ↔ r₂ a b) :
    ∀ l : List α, List.insertionSort r₁ l = List.insertionSort r₂ l
  | [] => rfl
  | b :: l => by
    simp only [List.insertionSort]
    rw [insertionSort_congr_rel h l, orderedInsert_congr_rel h b]

/-- The stable ascending sort is the stable descending sort on the negated
key (same tie-break). -/
theorem sortKeyAsc_eq_sortKeyDesc_neg {α K : Type} [LinearOrderedAddCommGroup K]
    (key : α → K) (l : List α) :
    sortKeyAsc key l = sortKeyDesc (fun a => -key a) l := by
  unfold sortKeyAsc sortKeyDesc
  exact insertionSort_congr_rel (fun a b => by
    constructor
    · intro h2; exact neg_le_neg h2
    · intro h2; simpa using neg_le_neg h2) l

/-- Inserting an element with key at least `key p` in front of a list shifts
the occurrence of `p` at index `n` to index `n + 1`. -/
theorem orderedInsert_get_shift {α K : Type} [LinearOrder K] (key : α → K) (x p : α)
    (hxp : key p ≤ key x) :
    ∀ (s : List α) (n : Nat), s.get? n = some p →
      (List.orderedInsert (fun a b => key b ≤ key a) x s).get? (n + 1) = some p := by
  intro s
  induction s with
  | nil => intro n hn; simp at hn
  | cons y ys ih =>
    intro n hn
    cases n with
    | zero =>
      have hyp : y = p := by simpa using hn
      subst hyp
      rw [List.orderedInsert, if_pos hxp]
      rfl
    | succ n =>
      have hys : ys.get? n = some p := by simpa using hn
      by_cases hxy : key y ≤ key x
      · rw [List.orderedInsert, if_pos hxy]
        simpa using hn
      · rw [List.orderedInsert, if_neg hxy]
        simpa using ih n hys

/-- Inserting an element with key strictly below `key p` into a sorted list
leaves the occurrence of `p` at index `n` in place. -/
theorem orderedInsert_get_keep {α K : Type} [LinearOrder K] (key : α → K) (x p : α)
    (hxp : key x < key p) :
    ∀ (s : List α), List.Sorted (fun a b => key b ≤ key a) s → ∀ (n : Nat),
      s.get? n = some p →
      (List.orderedInsert (fun a b => key b ≤ key a) x s).get? n = some p := by
  intro s
  induction s with
  | nil => intro _ n hn; simp at hn
  | cons y ys ih =>
    intro hs n hn
    have hyx : ¬ key y ≤ key x := by
      have hpmem : p ∈ y :: ys := List.get?_mem hn
      have hpy : key p ≤ key y := by
        rcases List.mem_cons.mp hpmem with h | h
        · rw [h]
        · exact List.rel_of_sorted_cons hs p h
      intro hcon
      exact absurd (lt_of_lt_of_le hxp (le_trans hpy hcon)) (lt_irrefl _)
    rw [List.orderedInsert, if_neg hyx]
    cases n with
    | zero => simpa using hn
    | succ n =>
      have hys : ys.get? n = some p := by simpa using hn
      simpa using ih hs.of_cons n hys

/-- The inserted element lands at the index counting the (sorted) elements
whose key strictly exceeds its own. -/
theorem orderedInsert_get_self {α K : Type} [LinearOrder K] (key : α → K) (x : α) :
    ∀ (s : List α), List.Sorted (fun a b => key b ≤ key a) s →
      (List.orderedInsert (fun a b => key b ≤ key a) x s).get?
        (s.countP (fun y => key x < key y)) = some x := by
  intro s
  induction s with
  | nil => simp
  | cons y ys ih =>
    intro hs
    by_cases hyx : key y ≤ key x
    · have hcount : (y :: ys).countP (fun a => decide (key x < key a)) = 0 := by
        rw [List.countP_eq_zero]
        intro a ha
        simp only [decide_eq_true_eq]
        rcases List.mem_cons.mp ha with h | h
        · rw [h]; exact not_lt.mpr hyx
        · exact not_lt.mpr (le_trans (List.rel_of_sorted_cons hs a h) hyx)
      rw [List.orderedInsert, if_pos hyx, hcount]
      rfl
    · have hxy : key x < key y := lt_of_not_le hyx
      rw [List.orderedInsert, if_neg hyx,
        List.countP_cons_of_pos _ _ (by simpa using hxy)]
      simpa using ih hs.of_cons

/-- The 0-based output index, in the stable descending sort of
`l₁ ++ p :: l₂`, of the distinguished occurrence of `p`: the elements of `l₁`
with key at least `key p` stay in front of it, as do the elements of `l₂`
with key strictly above `key p`. -/
def posIdxDesc {α K : Type} [LinearOrder K] (key : α → K) (l₁ : List α) (p : α)
    (l₂ : List α) : Nat :=
  l₁.countP (fun y => key p ≤ key y) + l₂.countP (fun y => key p < key y)

theorem sortKeyDesc_get_posIdx {α K : Type} [LinearOrder K] (key : α → K) (p : α) :
    ∀ (l₁ l₂ : List α),
      (sortKeyDesc key (l₁ ++ p :: l₂)).get? (posIdxDesc key l₁ p l₂) = some p := by
  intro l₁
  induction l₁ with
  | nil =>
    intro l₂
    have hcount : (sortKeyDesc key l₂).countP (fun y => key p < key y) =
        l₂.countP (fun y => key p < key y) :=
      (sortKeyDesc_perm key l₂).countP_eq _
    have h := orderedInsert_get_self key p (sortKeyDesc key l₂) (sortKeyDesc_sorted key l₂)
    rw [hcount] at h
    simpa [posIdxDesc, sortKeyDesc_cons] using h
  | cons a l₁ ih =>
    intro l₂
    have hstep : sortKeyDesc key ((a :: l₁) ++ p :: l₂) =
        List.orderedInsert (fun a b => key b ≤ key a) a
          (sortKeyDesc key (l₁ ++ p :: l₂)) := rfl
    by_cases hpa : key p ≤ key a
    · have hidx : posIdxDesc key (a :: l₁) p l₂ = posIdxDesc key l₁ p l₂ + 1 := by
        simp only [posIdxDesc, List.countP_cons, hpa, decide_True, if_pos]
        omega
      rw [hstep, hidx]
      exact orderedInsert_get_shift key a p hpa _ _ (ih l₂)
    · have hidx : posIdxDesc key (a :: l₁) p l₂ = posIdxDesc key l₁ p l₂ := by
        simp [posIdxDesc, List.countP_cons, hpa]
      rw [hstep, hidx]
      exact orderedInsert_get_keep key a p (lt_of_not_le hpa) _
        (sortKeyDesc_sorted key _) _ (ih l₂)

end SortLemmas

/-! ### Claim theorems -/

/-- Claim C5: position classification is a total function into
{Forward, Defense, Goalie}: a label lowercasing to "goalie" classifies as
GOALIE, one lowercasing to "defense" as DEFENSE, and every other string —
including "", "Center", "Left Wing", "Right Wing" — as FORWARD, never
raising an error. -/
theorem claim_C5_classification_total (s : String) :
    (Position.from_espn_position s = Position.FORWARD ∨
      Position.from_espn_position s = Position.DEFENSE ∨
      Position.from_espn_position s = Position.GOALIE) ∧
    (strLower s = "goalie" → Position.from_espn_position s = Position.GOALIE) ∧
    (strLower s = "defense" → Position.from_espn_position s = Position.DEFENSE) ∧
    (strLower s ≠ "goalie" → strLower s ≠ "defense" →
      Position.from_espn_position s = Position.FORWARD) ∧
    Position.from_espn_position "" = Position.FORWARD ∧
    Position.from_espn_position "Center" = Position.FORWARD ∧
    Position.from_espn_position "Left Wing" = Position.FORWARD ∧
    Position.from_espn_position "Right Wing" = Position.FORWARD ∧
    Position.from_espn_position "Goalie" = Position.GOALIE := by
  refine ⟨?_, ?_, ?_, ?_, by decide, by decide, by decide, by decide, by decide⟩
  · unfold Position.from_espn_position
    dsimp only
    split_ifs <;> simp
  · intro h
    unfold Position.from_espn_position
    dsimp only
    rw [if_pos h]
  · intro h
    unfold Position.from_espn_position
    dsimp only
    rw [if_neg (by rw [h]; decide), if_pos h]
  · intro h1 h2
    unfold Position.from_espn_position
    dsimp only
    rw [if_neg h1, if_neg h2]

theorem claim_C5_witness :
    Position.from_espn_position "GOALIE" = Position.GOALIE ∧
    Position.from_espn_position "DeFeNsE" = Position.DEFENSE ∧
    Position.from_espn_position "right wing" = Position.FORWARD :=
  ⟨(claim_C5_classification_total "GOALIE").2.1 (by decide),
   (claim_C5_classification_total "DeFeNsE").2.2.1 (by decide),
   (claim_C5_classification_total "right wing").2.2.2.1 (by decide) (by decide)⟩

/-- Claim C8: for every strategy (Total-Points, Position-Adjusted, VOR) and
every player list, including the empty one, rank is a permutation of the
input: same length and same player_id multiset, nothing added or dropped. -/
theorem claim_C8_rank_permutation (strategy : RankingStrategy) (players : List Player) :
    List.Perm (strategy.rank players) players ∧
    (strategy.rank players).length = players.length ∧
    ∀ pid : Int,
      ((strategy.rank players).map (fun p => p.player_id)).count pid =
        (players.map (fun p => p.player_id)).count pid :=
  ⟨sortKeyDesc_perm _ players, (sortKeyDesc_perm _ players).length_eq,
   fun pid => ((sortKeyDesc_perm _ players).map (fun p => p.player_id)).count_eq pid⟩

/-- Claim C6: every strategy's rank is deterministic (identical inputs give
identical outputs), sorted descending by the strategy-specific score, and
stable: the players in any score class appear in the output in their input
order. -/
theorem claim_C6_rank_deterministic_stable (strategy : RankingStrategy)
    (players players₂ : List Player) :
    (players = players₂ → strategy.rank players = strategy.rank players₂) ∧
    List.Sorted (fun a b => scoreKey strategy b ≤ scoreKey strategy a)
      (strategy.rank players) ∧
    ∀ c : Rat,
      (strategy.rank players).filter (fun p => scoreKey strategy p == c) =
        players.filter (fun p => scoreKey strategy p == c) :=
  ⟨fun h => by rw [h], sortKeyDesc_sorted _ players,
   fun c => sortKeyDesc_filter_keyclass _ players c⟩

theorem claim_C6_witness :
    RankingStrategy.totalPoints.rank
        [{ player_id := 1, player_name := "A", position := "Center", total_points := 5 },
         { player_id := 2, player_name := "B", position := "Center", total_points := 5 }] =
      RankingStrategy.totalPoints.rank
        [{ player_id := 1, player_name := "A", position := "Center", total_points := 5 },
         { player_id := 2, player_name := "B", position := "Center", total_points := 5 }] ∧
    RankingStrategy.totalPoints.rank
        [{ player_id := 1, player_name := "A", position := "Center", total_points := 5 },
         { player_id := 2, player_name := "B", position := "Center", total_points := 5 }] =
      [{ player_id := 1, player_name := "A", position := "Center", total_points := 5 },
       { player_id := 2, player_name := "B", position := "Center", total_points := 5 }] :=
  ⟨(claim_C6_rank_deterministic_stable RankingStrategy.totalPoints
      [{ player_id := 1, player_name := "A", position := "Center", total_points := 5 },
       { player_id := 2, player_name := "B", position := "Center", total_points := 5 }]
      [{ player_id := 1, player_name := "A", position := "Center", total_points := 5 },
       { player_id := 2, player_name := "B", position := "Center", total_points := 5 }]).1 rfl,
   by decide⟩

/-- Claim C10: get_redraft without an explicit strategy silently uses the
Position-Adjusted ranker with the default goalie multiplier 0.75 — not the
VOR ranker and not an error. -/
theorem claim_C10_default_strategy (rounds : Option Nat) (all_picks : List DraftPick) :
    get_redraft none rounds all_picks =
      get_redraft (some (RankingStrategy.positionAdjusted DEFAULT_GOALIE_MULTIPLIER))
        rounds all_picks ∧
    DEFAULT_GOALIE_MULTIPLIER = 3 / 4 :=
  ⟨rfl, rfl⟩

/-- Claim C9: strategy selection maps "vor", "total", "adjusted" to the
corresponding rankers with their defaults; every other identifier yields no
strategy and the redraft command reports a configuration error without
performing any ranking or comparison. -/
theorem claim_C9_strategy_selection (strategy_name : String) :
    get_strategy "vor" =
      some (RankingStrategy.valueOverReplacement DEFAULT_REPLACEMENT_LEVELS) ∧
    get_strategy "total" = some RankingStrategy.totalPoints ∧
    get_strategy "adjusted" =
      some (RankingStrategy.positionAdjusted DEFAULT_GOALIE_MULTIPLIER) ∧
    (strategy_name ≠ "vor" → strategy_name ≠ "total" → strategy_name ≠ "adjusted" →
      get_strategy strategy_name = none ∧
      ∀ (rounds : Option Nat) (all_picks : List DraftPick),
        run_redraft_command strategy_name rounds all_picks =
          Except.error ("Unknown strategy: " ++ strategy_name)) := by
  refine ⟨rfl, rfl, rfl, ?_⟩
  intro h1 h2 h3
  have hnone : get_strategy strategy_name = none := by
    unfold get_strategy
    rw [if_neg h1, if_neg h2, if_neg h3]
  refine ⟨hnone, fun rounds all_picks => ?_⟩
  unfold run_redraft_command
  rw [hnone]

theorem claim_C9_witness :
    get_strategy "zzz" = none ∧
    run_redraft_command "zzz" none [] = Except.error ("Unknown strategy: " ++ "zzz") := by
  have h := (claim_C9_strategy_selection "zzz").2.2.2 (by decide) (by decide) (by decide)
  exact ⟨h.1, h.2 none []⟩

/-- Claim C3: calculate_replacement_levels partitions the pool by classified
position, sorts each partition by total_points descending, and with
starters_needed = num_teams * roster_spots(position) returns the points of
the player at 0-based index starters_needed when the partition has at least
starters_needed + 1 players; otherwise the points of the last (worst) player
when the partition is non-empty (in particular with exactly starters_needed
players); otherwise 0. -/
theorem claim_C3_replacement_levels (players : List Player) (num_teams : Nat)
    (roster_spots : Position → Nat) (pos : Position) :
    (∀ h : num_teams * roster_spots pos < (positionPartition players pos).length,
      calculate_replacement_levels players num_teams roster_spots pos =
        ((positionPartition players pos).get
          ⟨num_teams * roster_spots pos, h⟩).total_points) ∧
    ((positionPartition players pos).length ≤ num_teams * roster_spots pos →
      positionPartition players pos ≠ [] →
      ∃ worst, (positionPartition players pos).getLast? = some worst ∧
        calculate_replacement_levels players num_teams roster_spots pos =
          worst.total_points) ∧
    (positionPartition players pos = [] →
      calculate_replacement_levels players num_teams roster_spots pos = 0) := by
  refine ⟨?_, ?_, ?_⟩
  · intro h
    unfold calculate_replacement_levels
    rw [dif_pos h]
  · intro hle hne
    refine ⟨(positionPartition players pos).getLast hne,
      List.getLast?_eq_getLast _ hne, ?_⟩
    unfold calculate_replacement_levels
    rw [dif_neg (by omega), List.getLast?_eq_getLast _ hne]
  · intro hnil
    unfold calculate_replacement_levels
    rw [dif_neg (by rw [hnil]; simp), hnil]
    simp

theorem claim_C3_witness :
    ((1 * 1 < (positionPartition
        [{ player_id := 1, player_name := "a", position := "Center", total_points := 10 },
         { player_id := 2, player_name := "b", position := "Center", total_points := 5 }]
        Position.FORWARD).length) ∧
      calculate_replacement_levels
        [{ player_id := 1, player_name := "a", position := "Center", total_points := 10 },
         { player_id := 2, player_name := "b", position := "Center", total_points := 5 }]
        1 (fun _ => 1) Position.FORWARD = 5) ∧
    (∃ worst, (positionPartition
        [{ player_id := 1, player_name := "a", position := "Center", total_points := 10 },
         { player_id := 2, player_name := "b", position := "Center", total_points := 5 }]
        Position.FORWARD).getLast? = some worst ∧
      calculate_replacement_levels
        [{ player_id := 1, player_name := "a", position := "Center", total_points := 10 },
         { player_id := 2, player_name := "b", position := "Center", total_points := 5 }]
        1 (fun _ => 2) Position.FORWARD = worst.total_points) ∧
    calculate_replacement_levels
        [{ player_id := 1, player_name := "a", position := "Center", total_points := 10 },
         { player_id := 2, player_name := "b", position := "Center", total_points := 5 }]
        1 (fun _ => 2) Position.GOALIE = 0 := by
  refine ⟨⟨by decide, ?_⟩, ?_, ?_⟩
  · have h := (claim_C3_replacement_levels
      [{ player_id := 1, player_name := "a", position := "Center", total_points := 10 },
       { player_id := 2, player_name := "b", position := "Center", total_points := 5 }]
      1 (fun _ => 1) Position.FORWARD).1 (by decide)
    rw [h]; decide
  · exact (claim_C3_replacement_levels
      [{ player_id := 1, player_name := "a", position := "Center", total_points := 10 },
       { player_id := 2, player_name := "b", position := "Center", total_points := 5 }]
      1 (fun _ => 2) Position.FORWARD).2.1 (by decide) (by decide)
  · exact (claim_C3_replacement_levels
      [{ player_id := 1, player_name := "a", position := "Center", total_points := 10 },
       { player_id := 2, player_name := "b", position := "Center", total_points := 5 }]
      1 (fun _ => 2) Position.GOALIE).2.2 (by decide)

/-- Claim C2 counterexample: a single comparison with pick_difference = +3
(picked 4th, redraft rank 1) is printed under "BIGGEST STEALS" and the busts
section is empty.  The claim asserts the opposite labelling: positive
differences reported as busts and negative ones as steals. -/
theorem claim_C2_counterexample :
    RedraftComparison.pick_difference
      ⟨4, 1, ⟨1, "A", "Center", 10⟩, "T"⟩ = 3 ∧
    printed_steals [⟨4, 1, ⟨1, "A", "Center", 10⟩, "T"⟩] =
      [⟨4, 1, ⟨1, "A", "Center", 10⟩, "T"⟩] ∧
    printed_busts [⟨4, 1, ⟨1, "A", "Center", 10⟩, "T"⟩] = [] := by
  decide

/-- Claim C2 amended: pick_difference = actual_pick - redraft_pick, and the
comparisons with pick_difference > 0, largest first (top 5, ties in original
relative order — the sort is stable), are reported as the biggest STEALS,
while the comparisons with pick_difference < 0, most negative first (top 5),
are reported as the biggest BUSTS. -/
theorem claim_C2_steals_busts_amended (comparisons : List RedraftComparison) :
    (∀ c : RedraftComparison,
      c.pick_difference = (c.actual_pick : Int) - (c.redraft_pick : Int)) ∧
    printed_steals comparisons =
      (sortKeyDesc RedraftComparison.pick_difference
        (comparisons.filter (fun c => 0 < c.pick_difference))).take 5 ∧
    printed_busts comparisons =
      (sortKeyAsc RedraftComparison.pick_difference
        (comparisons.filter (fun c => c.pick_difference < 0))).take 5 := by
  refine ⟨fun c => rfl, ?_, ?_⟩
  · unfold printed_steals biggest_steals
    rw [sorted_take_filter_lt RedraftComparison.pick_difference 0 _
      (sortKeyDesc_sorted _ _) 5]
    rw [sortKeyDesc_filter_comm]
  · unfold printed_busts biggest_busts
    rw [sortKeyAsc_eq_sortKeyDesc_neg, sortKeyAsc_eq_sortKeyDesc_neg]
    have hpred : (fun c : RedraftComparison => decide (c.pick_difference < 0)) =
        (fun c : RedraftComparison => decide ((0 : Int) < -c.pick_difference)) := by
      funext c
      rw [decide_eq_decide]
      omega
    rw [hpred]
    rw [sorted_take_filter_lt (fun c : RedraftComparison => -c.pick_difference) 0 _
      (sortKeyDesc_sorted _ _) 5]
    rw [sortKeyDesc_filter_comm]

theorem redraftPosition_isSome_of_mem (pid : Int) :
    ∀ ranked : List Player, (∃ q ∈ ranked, q.player_id = pid) →
      (redraftPosition pid ranked).isSome = true := by
  intro ranked
  induction ranked with
  | nil => rintro ⟨q, hq, _⟩; exact absurd hq (List.not_mem_nil q)
  | cons q qs ih =>
    rintro ⟨w, hw, hwid⟩
    rw [redraftPosition]
    cases hqs : redraftPosition pid qs with
    | some i => simp
    | none =>
      rcases List.mem_cons.mp hw with h | h
      · subst h
        rw [if_pos hwid]
        simp
      · have hsome := ih ⟨w, h, hwid⟩
        rw [hqs] at hsome
        simp at hsome

theorem buildComparisons_isSome (ranked : List Player) :
    ∀ picks : List DraftPick,
      (∀ pk ∈ picks, (mkComparison ranked pk).isSome = true) →
      (buildComparisons ranked picks).isSome = true := by
  intro picks
  induction picks with
  | nil => intro _; simp [buildComparisons]
  | cons pick picks ih =>
    intro h
    have hmk := h pick (List.mem_cons_self pick picks)
    have hrest := ih (fun pk hpk => h pk (List.mem_cons_of_mem pick hpk))
    rw [buildComparisons]
    cases hm : mkComparison ranked pick with
    | none => rw [hm] at hmk; simp at hmk
    | some c =>
      cases hr : buildComparisons ranked picks with
      | none => rw [hr] at hrest; simp at hrest
      | some cs => simp

/-- Claim C4: with pairwise-distinct player ids in the pick list, every
pick's player id appears exactly once in the strategy's ranked pool, the
redraft-position lookup succeeds for every pick, and get_redraft never hits
the missing-player error branch, for any round limit. -/
theorem claim_C4_lookup_total (strategy : RankingStrategy) (all_picks : List DraftPick)
    (hnodup : (all_picks.map (fun pk => pk.player.player_id)).Nodup) :
    (∀ pk ∈ all_picks,
      ((strategy.rank (all_picks.map DraftPick.player)).map
        (fun p => p.player_id)).count pk.player.player_id = 1) ∧
    (∀ pk ∈ all_picks,
      (redraftPosition pk.player.player_id
        (strategy.rank (all_picks.map DraftPick.player))).isSome = true) ∧
    ∀ rounds : Option Nat, (get_redraft (some strategy) rounds all_picks).isSome = true := by
  have hids : (all_picks.map DraftPick.player).map (fun p => p.player_id) =
      all_picks.map (fun pk => pk.player.player_id) := by
    rw [List.map_map]
    rfl
  have hcount : ∀ pk ∈ all_picks,
      ((strategy.rank (all_picks.map DraftPick.player)).map
        (fun p => p.player_id)).count pk.player.player_id = 1 := by
    intro pk hpk
    have hperm := (sortKeyDesc_perm (scoreKey strategy)
      (all_picks.map DraftPick.player)).map (fun p => p.player_id)
    unfold RankingStrategy.rank
    rw [hperm.count_eq, hids]
    exact List.count_eq_one_of_mem hnodup
      (List.mem_map_of_mem (fun pk => pk.player.player_id) hpk)
  have hlookup : ∀ pk ∈ all_picks,
      (redraftPosition pk.player.player_id
        (strategy.rank (all_picks.map DraftPick.player))).isSome = true := by
    intro pk hpk
    apply redraftPosition_isSome_of_mem
    refine ⟨pk.player, ?_, rfl⟩
    have hmem : pk.player ∈ all_picks.map DraftPick.player :=
      List.mem_map_of_mem DraftPick.player hpk
    exact ((sortKeyDesc_perm (scoreKey strategy)
      (all_picks.map DraftPick.player)).symm.subset) hmem
  refine ⟨hcount, hlookup, ?_⟩
  intro rounds
  unfold get_redraft
  rw [Option.isSome_map']
  apply buildComparisons_isSome
  intro pk hpk
  have hpk2 : pk ∈ all_picks := by
    cases rounds with
    | none => exact hpk
    | some r => exact List.mem_of_mem_filter hpk
  unfold mkComparison
  rw [Option.isSome_map']
  exact hlookup pk hpk2

theorem claim_C4_witness :
    ([ (⟨1, 1, 1, 10, "T1", ⟨1, "A", "Center", 50⟩⟩ : DraftPick),
       ⟨2, 1, 2, 10, "T1", ⟨2, "B", "Center", 60⟩⟩ ].map
        (fun pk => pk.player.player_id)).Nodup ∧
    (get_redraft (some RankingStrategy.totalPoints) (some 1)
      [ ⟨1, 1, 1, 10, "T1", ⟨1, "A", "Center", 50⟩⟩,
        ⟨2, 1, 2, 10, "T1", ⟨2, "B", "Center", 60⟩⟩ ]).isSome = true :=
  ⟨by decide,
   (claim_C4_lookup_total RankingStrategy.totalPoints
     [ ⟨1, 1, 1, 10, "T1", ⟨1, "A", "Center", 50⟩⟩,
       ⟨2, 1, 2, 10, "T1", ⟨2, "B", "Center", 60⟩⟩ ] (by decide)).2.2 (some 1)⟩

theorem buildComparisons_filter_sublist (ranked : List Player) (q : DraftPick → Bool) :
    ∀ (picks : List DraftPick) (cs cs' : List RedraftComparison),
      buildComparisons ranked picks = some cs →
      buildComparisons ranked (picks.filter q) = some cs' →
      List.Sublist cs' cs := by
  intro picks
  induction picks with
  | nil =>
    intro cs cs' h h'
    rw [List.filter_nil] at h'
    rw [buildComparisons] at h h'
    cases h
    cases h'
    exact List.Sublist.refl []
  | cons pick picks ih =>
    intro cs cs' h h'
    rw [buildComparisons] at h
    cases hmk : mkComparison ranked pick with
    | none => rw [hmk] at h; exact absurd h (by simp)
    | some c =>
      rw [hmk] at h
      cases hrest : buildComparisons ranked picks with
      | none => rw [hrest] at h; exact absurd h (by simp)
      | some cs₀ =>
        rw [hrest] at h
        have hcs : cs = c :: cs₀ := by
          simpa using h.symm
        subst hcs
        by_cases hq : q pick
        · rw [List.filter_cons_of_pos hq, buildComparisons, hmk] at h'
          cases hrest' : buildComparisons ranked (picks.filter q) with
          | none => rw [hrest'] at h'; exact absurd h' (by simp)
          | some cs₁ =>
            rw [hrest'] at h'
            have hcs' : cs' = c :: cs₁ := by simpa using h'.symm
            subst hcs'
            exact List.Sublist.cons₂ c (ih cs₀ cs₁ hrest hrest')
        · rw [List.filter_cons_of_neg hq] at h'
          exact List.Sublist.cons c (ih cs₀ cs' hrest h')

/-- Claim C1: redraft ranks are independent of round filtering.  With the
same picks and strategy, the limited output keeps the identical ranked pool
and its comparisons (hence each player's redraft_pick) form a sublist of the
unfiltered comparisons: filtering only selects which comparisons are
emitted. -/
theorem claim_C1_round_filter_independence (strategy : Option RankingStrategy)
    (N : Nat) (all_picks : List DraftPick) (r rN : RedraftResult)
    (hfull : get_redraft strategy none all_picks = some r)
    (hlim : get_redraft strategy (some N) all_picks = some rN) :
    rN.ranked_players = r.ranked_players ∧
    List.Sublist rN.comparisons r.comparisons := by
  unfold get_redraft at hfull hlim
  rw [Option.map_eq_some'] at hfull hlim
  rcases hfull with ⟨cs, hcs, hr⟩
  rcases hlim with ⟨cs', hcs', hrN⟩
  subst hr
  subst hrN
  exact ⟨rfl, buildComparisons_filter_sublist _ _ all_picks cs cs' hcs hcs'⟩

theorem claim_C1_witness :
    get_redraft (some RankingStrategy.totalPoints) none
        [ (⟨1, 1, 1, 10, "T1", ⟨1, "A", "Center", 50⟩⟩ : DraftPick),
          ⟨2, 1, 2, 10, "T1", ⟨2, "B", "Center", 60⟩⟩ ] =
      some { comparisons :=
               [ ⟨1, 2, ⟨1, "A", "Center", 50⟩, "T1"⟩,
                 ⟨2, 1, ⟨2, "B", "Center", 60⟩, "T1"⟩ ],
             ranked_players :=
               [ ⟨2, "B", "Center", 60⟩, ⟨1, "A", "Center", 50⟩ ] } ∧
    get_redraft (some RankingStrategy.totalPoints) (some 1)
        [ ⟨1, 1, 1, 10, "T1", ⟨1, "A", "Center", 50⟩⟩,
          ⟨2, 1, 2, 10, "T1", ⟨2, "B", "Center", 60⟩⟩ ] =
      some { comparisons := [ ⟨1, 2, ⟨1, "A", "Center", 50⟩, "T1"⟩ ],
             ranked_players :=
               [ ⟨2, "B", "Center", 60⟩, ⟨1, "A", "Center", 50⟩ ] } ∧
    ([ (⟨1, 2, (⟨1, "A", "Center", 50⟩ : Player), "T1"⟩ : RedraftComparison) ] =
        [ ⟨1, 2, ⟨1, "A", "Center", 50⟩, "T1"⟩ ] ∧
      List.Sublist
        [ (⟨1, 2, (⟨1, "A", "Center", 50⟩ : Player), "T1"⟩ : RedraftComparison) ]
        [ ⟨1, 2, ⟨1, "A", "Center", 50⟩, "T1"⟩,
          ⟨2, 1, ⟨2, "B", "Center", 60⟩, "T1"⟩ ]) := by
  refine ⟨by decide, by decide, ?_⟩
  have h := claim_C1_round_filter_independence (some RankingStrategy.totalPoints) 1
    [ ⟨1, 1, 1, 10, "T1", ⟨1, "A", "Center", 50⟩⟩,
      ⟨2, 1, 2, 10, "T1", ⟨2, "B", "Center", 60⟩⟩ ]
    { comparisons :=
        [ ⟨1, 2, ⟨1, "A", "Center", 50⟩, "T1"⟩,
          ⟨2, 1, ⟨2, "B", "Center", 60⟩, "T1"⟩ ],
      ranked_players := [ ⟨2, "B", "Center", 60⟩, ⟨1, "A", "Center", 50⟩ ] }
    { comparisons := [ ⟨1, 2, ⟨1, "A", "Center", 50⟩, "T1"⟩ ],
      ranked_players := [ ⟨2, "B", "Center", 60⟩, ⟨1, "A", "Center", 50⟩ ] }
    (by decide) (by decide)
  exact ⟨by decide, h.2⟩

/-- Claim C7: VOR ranking is monotone in a player's points.  With fixed
replacement levels, raising the points of the distinguished player `p` (all
other players unchanged) never increases its 0-based output position in the
VOR ranker's rank: the first two conjuncts locate the distinguished
occurrence in each output at `posIdxDesc`, and the third says the raised
player's position is at most the original one. -/
theorem claim_C7_vor_monotone (replacement_levels : Position → Rat)
    (l₁ l₂ : List Player) (p : Player) (t : Rat)
    (hpt : p.total_points ≤ t) :
    ((RankingStrategy.valueOverReplacement replacement_levels).rank
        (l₁ ++ { p with total_points := t } :: l₂)).get?
      (posIdxDesc (getVor replacement_levels) l₁ { p with total_points := t } l₂) =
        some { p with total_points := t } ∧
    ((RankingStrategy.valueOverReplacement replacement_levels).rank
        (l₁ ++ p :: l₂)).get?
      (posIdxDesc (getVor replacement_levels) l₁ p l₂) = some p ∧
    posIdxDesc (getVor replacement_levels) l₁ { p with total_points := t } l₂ ≤
      posIdxDesc (getVor replacement_levels) l₁ p l₂ := by
  have hkey : getVor replacement_levels p ≤
      getVor replacement_levels { p with total_points := t } := by
    unfold getVor
    exact sub_le_sub_right hpt _
  refine ⟨sortKeyDesc_get_posIdx _ _ l₁ l₂, sortKeyDesc_get_posIdx _ _ l₁ l₂, ?_⟩
  unfold posIdxDesc
  have h1 : l₁.countP
      (fun y => getVor replacement_levels { p with total_points := t } ≤
        getVor replacement_levels y) ≤
      l₁.countP (fun y => getVor replacement_levels p ≤ getVor replacement_levels y) := by
    apply List.countP_mono_left
    intro y _ hy
    simp only [decide_eq_true_eq] at hy ⊢
    exact le_trans hkey hy
  have h2 : l₂.countP
      (fun y => getVor replacement_levels { p with total_points := t } <
        getVor replacement_levels y) ≤
      l₂.countP (fun y => getVor replacement_levels p < getVor replacement_levels y) := by
    apply List.countP_mono_left
    intro y _ hy
    simp only [decide_eq_true_eq] at hy ⊢
    exact lt_of_le_of_lt hkey hy
  omega

theorem claim_C7_witness :
    ((1 : Rat) ≤ 10) ∧
    (((RankingStrategy.valueOverReplacement (fun _ => 0)).rank
        ([(⟨9, "q", "Center", 5⟩ : Player)] ++ (⟨1, "p", "Center", 10⟩ : Player) :: [])).get?
      (posIdxDesc (getVor (fun _ => 0)) [(⟨9, "q", "Center", 5⟩ : Player)]
        (⟨1, "p", "Center", 10⟩ : Player) []) = some (⟨1, "p", "Center", 10⟩ : Player) ∧
    ((RankingStrategy.valueOverReplacement (fun _ => 0)).rank
        ([(⟨9, "q", "Center", 5⟩ : Player)] ++ (⟨1, "p", "Center", 1⟩ : Player) :: [])).get?
      (posIdxDesc (getVor (fun _ => 0)) [(⟨9, "q", "Center", 5⟩ : Player)]
        (⟨1, "p", "Center", 1⟩ : Player) []) = some (⟨1, "p", "Center", 1⟩ : Player) ∧
    posIdxDesc (getVor (fun _ => 0)) [(⟨9, "q", "Center", 5⟩ : Player)]
        (⟨1, "p", "Center", 10⟩ : Player) [] ≤
      posIdxDesc (getVor (fun _ => 0)) [(⟨9, "q", "Center", 5⟩ : Player)]
        (⟨1, "p", "Center", 1⟩ : Player) []) :=
  ⟨by norm_num,
   claim_C7_vor_monotone (fun _ => 0) [⟨9, "q", "Center", 5⟩] []
     ⟨1, "p", "Center", 1⟩ 10 (by norm_num)⟩

end FantasyHockey
